import Mathlib

set_option maxRecDepth 8000

/-!
Verification development for the content-extraction and context-assembly core
of the PageSense backend (files backend/app/services/content_extractor.py and
backend/app/services/llm_service.py).

Texts are modelled as `List Char` (Python `str` restricted to its ASCII
fragment where character classes matter; the classes appearing in the code
are all ASCII). Python `int` is unbounded; all quantities here are `Nat`,
except where the code can produce a negative value, which is modelled with
`Int` (see `nextWindowStart`).
-/

/-- ASCII whitespace, the fragment of Python `str.strip` / regex class `\s`
relevant to ASCII text: space, tab, newline, carriage return, vertical tab,
form feed. -/
def isPySpace (c : Char) : Bool :=
  c == ' ' || c == '\t' || c == '\n' || c == '\r' || c == '\x0b' || c == '\x0c'

/-- Python `str.strip()`: remove leading and trailing whitespace. -/
def pyStrip (s : List Char) : List Char :=
  ((s.dropWhile isPySpace).reverse.dropWhile isPySpace).reverse

/-- Python slice `text[s:e]` for `0 <= s <= e <= len text`. -/
def pySlice (text : List Char) (s e : Nat) : List Char :=
  (text.drop s).take (e - s)

/-- ASCII lower-casing, the fragment of Python `str.lower` used here. -/
def asciiLower (c : Char) : Char :=
  if c.isUpper then Char.ofNat (c.toNat + 32) else c

/-- ASCII upper-casing, the fragment of Python `str.upper` used here. -/
def asciiUpper (c : Char) : Char :=
  if c.isLower then Char.ofNat (c.toNat - 32) else c

/-- Word character in the sense of the regex class `\w` (ASCII fragment):
letters, digits, underscore. -/
def isWordChar (c : Char) : Bool :=
  c.isAlphanum || c == '_'

/-! ## A small backtracking regex engine

The three redaction patterns of `ContentExtractor.__init__` and the two
whitespace-cleanup patterns of `_clean_text` are all built from single
character classes under the quantifiers `?`, `{n}`, `{n,}`, `+`, `*` plus the
zero-width word-boundary assertion `\b`. `RE` represents exactly these
constructs; a pattern is a `List RE`, read left to right:
`{n}` is n copies of `RE.one`, `+` is `RE.one` then `RE.many`, `{2,}` is two
copies of `RE.one` then `RE.many`. The matcher implements the
leftmost, greedy, backtracking semantics of the Python `re` module. -/

inductive RE where
  /-- zero-width word boundary assertion, regex `\b` -/
  | bnd : RE
  /-- exactly one character of a class -/
  | one : (Char → Bool) → RE
  /-- optional single character of a class, greedy (regex `?`) -/
  | opt : (Char → Bool) → RE
  /-- zero or more characters of a class, greedy (regex `*`) -/
  | many : (Char → Bool) → RE

/-- Whether an optional character is a word character (absent counts as
not a word character, as at the ends of the string). -/
def optWord : Option Char → Bool
  | some c => isWordChar c
  | none => false

/-- Word boundary between an adjacent pair of (possibly absent) characters. -/
def wordBoundary (a b : Option Char) : Bool :=
  optWord a != optWord b

/-- Backtracking matcher: `reMatchF fuel ps prev s` tries to match the
pattern list `ps` against a prefix of `s`, where `prev` is the character
just before `s` in the full subject (for `\b`). Returns the number of
characters consumed by the preferred (greedy, leftmost alternative) match,
or `none`. Every recursive call decreases `ps.length + s.length`, so fuel
`ps.length + s.length + 1` (used by the `reMatch` wrapper) never runs out;
the `fuel = 0` branch is unreachable from the wrapper. -/
def reMatchF : Nat → List RE → Option Char → List Char → Option Nat
  | 0, _, _, _ => none
  | _ + 1, [], _, _ => some 0
  | f + 1, RE.bnd :: ps, prev, s =>
      if wordBoundary prev s.head? then reMatchF f ps prev s else none
  | _ + 1, RE.one _ :: _, _, [] => none
  | f + 1, RE.one p :: ps, _, c :: rest =>
      if p c then (reMatchF f ps (some c) rest).map (· + 1) else none
  | f + 1, RE.opt _ :: ps, prev, [] => reMatchF f ps prev []
  | f + 1, RE.opt p :: ps, prev, c :: rest =>
      if p c then
        match reMatchF f ps (some c) rest with
        | some n => some (n + 1)
        | none => reMatchF f ps prev (c :: rest)
      else reMatchF f ps prev (c :: rest)
  | f + 1, RE.many _ :: ps, prev, [] => reMatchF f ps prev []
  | f + 1, RE.many p :: ps, prev, c :: rest =>
      if p c then
        match reMatchF f (RE.many p :: ps) (some c) rest with
        | some n => some (n + 1)
        | none => reMatchF f ps prev (c :: rest)
      else reMatchF f ps prev (c :: rest)

/-- Match the pattern at the start of `s` with always-sufficient fuel. -/
def reMatch (ps : List RE) (prev : Option Char) (s : List Char) : Option Nat :=
  reMatchF (ps.length + s.length + 1) ps prev s

/-- Leftmost match: scan positions left to right, as `re.search` does, and
return (offset in `s`, matched length) of the first position where the
pattern matches. -/
def searchFrom (pat : List RE) (prev : Option Char) (s : List Char) :
    Option (Nat × Nat) :=
  match reMatch pat prev s with
  | some n => some (0, n)
  | none =>
    match s with
    | [] => none
    | c :: rest =>
      match searchFrom pat (some c) rest with
      | some (pos, len) => some (pos + 1, len)
      | none => none

/-- One pass of Python `pattern.sub(m, s)`: replace every leftmost
non-overlapping match of `pat` in `s` by `m`, scanning the original text and
resuming immediately after each match. None of the patterns used here can
match the empty string, so the zero-length guard is never taken; the fuel
`s.length + 1` used by `subTop` is always sufficient because every
substitution consumes at least one character of the remaining subject. -/
def subAllF (pat : List RE) (m : List Char) : Nat → Option Char → List Char → List Char
  | 0, _, s => s
  | f + 1, prev, s =>
    match searchFrom pat prev s with
    | none => s
    | some (pos, len) =>
      if len = 0 then s
      else s.take pos ++ m ++ subAllF pat m f (s.get? (pos + len - 1)) (s.drop (pos + len))

/-- Python `pattern.sub(m, s)` on the whole string `s`. -/
def subTop (pat : List RE) (m : List Char) (s : List Char) : List Char :=
  subAllF pat m (s.length + 1) none s

/-- Whether the pattern matches anywhere in `s` (Python `pattern.search`). -/
def hasMatch (pat : List RE) (s : List Char) : Bool :=
  (searchFrom pat none s).isSome

/-! ## The concrete patterns of content_extractor.py -/

/-- Regex class `\d` (ASCII digits). -/
def isDigitCh (c : Char) : Bool := c.isDigit

/-- Regex class `[-\s]`. -/
def isSepCh (c : Char) : Bool := c == '-' || isPySpace c

/-- Credit-card pattern of `ContentExtractor.__init__`, line 25:
word boundary, four digits, then three more groups of an optional
separator and four digits, word boundary. -/
def ccPat : List RE :=
  [RE.bnd] ++ List.replicate 4 (RE.one isDigitCh) ++
  [RE.opt isSepCh] ++ List.replicate 4 (RE.one isDigitCh) ++
  [RE.opt isSepCh] ++ List.replicate 4 (RE.one isDigitCh) ++
  [RE.opt isSepCh] ++ List.replicate 4 (RE.one isDigitCh) ++ [RE.bnd]

/-- SSN pattern of `ContentExtractor.__init__`, line 26: word boundary,
three digits, hyphen, two digits, hyphen, four digits, word boundary. -/
def ssnPat : List RE :=
  [RE.bnd] ++ List.replicate 3 (RE.one isDigitCh) ++ [RE.one (fun c => c == '-')] ++
  List.replicate 2 (RE.one isDigitCh) ++ [RE.one (fun c => c == '-')] ++
  List.replicate 4 (RE.one isDigitCh) ++ [RE.bnd]

/-- Character class of the local part of the email pattern:
letters, digits, dot, underscore, percent, plus, hyphen. -/
def isLocalCh (c : Char) : Bool :=
  c.isAlphanum || c == '.' || c == '_' || c == '%' || c == '+' || c == '-'

/-- Character class of the domain part: letters, digits, dot, hyphen. -/
def isDomainCh (c : Char) : Bool :=
  c.isAlphanum || c == '.' || c == '-'

/-- Character class of the top-level-domain part as written in the source,
line 27: uppercase letters, the literal pipe character, lowercase letters. -/
def isTldCh (c : Char) : Bool :=
  c.isUpper || c == '|' || c.isLower

/-- Email pattern of `ContentExtractor.__init__`, line 27: word boundary,
one or more local characters, at sign, one or more domain characters, dot,
two or more TLD characters, word boundary. -/
def emailPat : List RE :=
  [RE.bnd, RE.one isLocalCh, RE.many isLocalCh, RE.one (fun c => c == '@'),
   RE.one isDomainCh, RE.many isDomainCh, RE.one (fun c => c == '.'),
   RE.one isTldCh, RE.one isTldCh, RE.many isTldCh, RE.bnd]

/-- Pattern of `_clean_text`, line 75: newline, any whitespace run, newline. -/
def nlPat : List RE :=
  [RE.one (fun c => c == '\n'), RE.many isPySpace, RE.one (fun c => c == '\n')]

/-- Pattern of `_clean_text`, line 76: a run of one or more spaces. -/
def spacesPat : List RE :=
  [RE.one (fun c => c == ' '), RE.many (fun c => c == ' ')]

/-- Replacement marker built by `_redact_sensitive`, line 83: the literal
text REDACTED_ followed by the upper-cased pattern name, in brackets. -/
def redactMarker (name : String) : List Char :=
  ("[REDACTED_").data ++ name.data.map asciiUpper ++ [']']

def ccMarker : List Char := redactMarker "credit_card"

def ssnMarker : List Char := redactMarker "ssn"

def emailMarker : List Char := redactMarker "email"

/-- Model of `ContentExtractor._clean_text` (lines 72 to 78): collapse
blank-line runs, collapse space runs, then strip. -/
def cleanText (s : List Char) : List Char :=
  pyStrip (subTop spacesPat [' '] (subTop nlPat ['\n', '\n'] s))

/-- Model of `ContentExtractor._redact_sensitive` (lines 80 to 84): apply
the three substitutions in the insertion order of the pattern dict, which in
Python 3.7+ is the literal order credit_card, ssn, email. -/
def redactSensitive (s : List Char) : List Char :=
  subTop emailPat emailMarker (subTop ssnPat ssnMarker (subTop ccPat ccMarker s))

/-- The normalization pipeline of `extract_from_html`, lines 54 and 57:
whitespace cleanup first, then redaction. -/
def normalizeAndRedact (s : List Char) : List Char :=
  redactSensitive (cleanText s)

/-! ## MD5, for the chunk identifiers

`_create_chunks` derives each chunk id from `hashlib.md5` of the string
built from the source url and the chunk index. MD5 (RFC 1321) is
implemented here over `Nat` with explicit reduction modulo `2 ^ 32`. -/

/-- Reduce modulo `2 ^ 32`. -/
def w32 (n : Nat) : Nat := n % 4294967296

/-- Bitwise complement within 32 bits. -/
def mask32Not (x : Nat) : Nat := Nat.xor x 4294967295

/-- Rotate a 32-bit word left by `s` bits. -/
def rotl32 (x s : Nat) : Nat :=
  (x % 2 ^ (32 - s)) * 2 ^ s + x / 2 ^ (32 - s)

def md5F (b c d : Nat) : Nat := Nat.lor (Nat.land b c) (Nat.land (mask32Not b) d)

def md5G (b c d : Nat) : Nat := Nat.lor (Nat.land d b) (Nat.land (mask32Not d) c)

def md5H (b c d : Nat) : Nat := Nat.xor b (Nat.xor c d)

def md5I (b c d : Nat) : Nat := Nat.xor c (Nat.lor b (mask32Not d))

/-- Per-round shift amounts. -/
def md5S : List Nat :=
  [7, 12, 17, 22, 7, 12, 17, 22, 7, 12, 17, 22, 7, 12, 17, 22,
   5, 9, 14, 20, 5, 9, 14, 20, 5, 9, 14, 20, 5, 9, 14, 20,
   4, 11, 16, 23, 4, 11, 16, 23, 4, 11, 16, 23, 4, 11, 16, 23,
   6, 10, 15, 21, 6, 10, 15, 21, 6, 10, 15, 21, 6, 10, 15, 21]

/-- Per-round additive constants, the integer parts of `abs (sin (i + 1))`
scaled by `2 ^ 32`. -/
def md5K : List Nat :=
  [3614090360, 3905402710, 606105819, 3250441966, 4118548399, 1200080426,
   2821735955, 4249261313, 1770035416, 2336552879, 4294925233, 2304563134,
   1804603682, 4254626195, 2792965006, 1236535329, 4129170786, 3225465664,
   643717713, 3921069994, 3593408605, 38016083, 3634488961, 3889429448,
   568446438, 3275163606, 4107603335, 1163531501, 2850285829, 4243563512,
   1735328473, 2368359562, 4294588738, 2272392833, 1839030562, 4259657740,
   2763975236, 1272893353, 4139469664, 3200236656, 681279174, 3936430074,
   3572445317, 76029189, 3654602809, 3873151461, 530742520, 3299628645,
   4096336452, 1126891415, 2878612391, 4237533241, 1700485571, 2399980690,
   4293915773, 2240044497, 1873313359, 4264355552, 2734768916, 1309151649,
   4149444226, 3174756917, 718787259, 3951481745]

/-- One MD5 round applied to the running state. -/
def md5round (M : List Nat) (st : Nat × Nat × Nat × Nat) (i : Nat) :
    Nat × Nat × Nat × Nat :=
  let a := st.1
  let b := st.2.1
  let c := st.2.2.1
  let d := st.2.2.2
  let f :=
    if i < 16 then md5F b c d
    else if i < 32 then md5G b c d
    else if i < 48 then md5H b c d
    else md5I b c d
  let g :=
    if i < 16 then i
    else if i < 32 then (5 * i + 1) % 16
    else if i < 48 then (3 * i + 5) % 16
    else (7 * i) % 16
  (d, w32 (b + rotl32 (w32 (a + f + md5K.getD i 0 + M.getD g 0)) (md5S.getD i 0)), b, c)

def md5Init : Nat × Nat × Nat × Nat :=
  (1732584193, 4023233417, 2562383102, 271733878)

/-- Process one 16-word block. -/
def md5Block (st : Nat × Nat × Nat × Nat) (M : List Nat) : Nat × Nat × Nat × Nat :=
  let r := (List.range 64).foldl (md5round M) st
  (w32 (st.1 + r.1), w32 (st.2.1 + r.2.1), w32 (st.2.2.1 + r.2.2.1),
   w32 (st.2.2.2 + r.2.2.2))

/-- Little-endian bytes of a number, fixed width `k`. -/
def toLEBytes : Nat → Nat → List Nat
  | 0, _ => []
  | k + 1, n => n % 256 :: toLEBytes k (n / 256)

/-- Little-endian word from a list of bytes. -/
def leWord (bs : List Nat) : Nat :=
  bs.foldr (fun b acc => b + 256 * acc) 0

/-- MD5 padding: append the 0x80 byte, zeros to 56 mod 64, then the bit
length as eight little-endian bytes. -/
def md5pad (msg : List Nat) : List Nat :=
  msg ++ 128 :: List.replicate ((119 - msg.length % 64) % 64) 0 ++
    toLEBytes 8 (8 * msg.length)

/-- Split a padded message into 16-word blocks. -/
def toBlocks (l : List Nat) : List (List Nat) :=
  (List.range (l.length / 64)).map fun i =>
    (List.range 16).map fun j => leWord (((l.drop (64 * i)).drop (4 * j)).take 4)

/-- The 16-byte MD5 digest of a byte list. -/
def md5Bytes (msg : List Nat) : List Nat :=
  let st := (toBlocks (md5pad msg)).foldl md5Block md5Init
  toLEBytes 4 st.1 ++ toLEBytes 4 st.2.1 ++ toLEBytes 4 st.2.2.1 ++ toLEBytes 4 st.2.2.2

/-- Lowercase hex digit. -/
def hexDigitCh (n : Nat) : Char :=
  ("0123456789abcdef").data.getD n '0'

/-- Two hex characters per byte, in order (Python `hexdigest`). -/
def hexPairs : List Nat → List Char
  | [] => []
  | b :: bs => hexDigitCh (b / 16) :: hexDigitCh (b % 16) :: hexPairs bs

/-- UTF-8 encoding of one character (Python `str.encode`). -/
def utf8Bytes (c : Char) : List Nat :=
  let n := c.toNat
  if n < 128 then [n]
  else if n < 2048 then [192 + n / 64, 128 + n % 64]
  else if n < 65536 then [224 + n / 4096, 128 + n / 64 % 64, 128 + n % 64]
  else [240 + n / 262144, 128 + n / 4096 % 64, 128 + n / 64 % 64, 128 + n % 64]

/-- UTF-8 bytes of a string. -/
def strBytes (s : String) : List Nat :=
  s.data.foldr (fun c acc => utf8Bytes c ++ acc) []

/-- Python `hashlib.md5(s.encode()).hexdigest()`. -/
def md5hex (s : String) : String :=
  String.mk (hexPairs (md5Bytes (strBytes s)))

/-- Chunk identifier of `_create_chunks`, lines 113 to 115: the first 16 hex
characters of the MD5 of the url, a colon, and the decimal chunk index. -/
def chunkId (url : String) (idx : Nat) : String :=
  String.mk ((md5hex (url ++ ":" ++ toString idx)).data.take 16)

/-! ## The chunker of ContentExtractor._create_chunks -/

/-- Mirror of the pydantic `TextChunk` schema (schemas.py lines 39 to 44). -/
structure TextChunk where
  id : String
  text : List Char
  start_char : Nat
  end_char : Nat
  dom_selector : Option String
deriving DecidableEq, Repr

/-- Whether an optional character is one of the sentence terminators
checked by the boundary refinement, line 106. -/
def isSentenceEnd : Option Char → Bool
  | some c => c == '.' || c == '!' || c == '?'
  | none => false

/-- Backward scan of lines 105 to 108: check indices `i, i - 1, ...` for
`steps` steps and return the first index holding a sentence terminator. -/
def scanBack (text : List Char) : Nat → Nat → Option Nat
  | _, 0 => none
  | i, steps + 1 =>
      if isSentenceEnd (text.get? i) then some i else scanBack text (i - 1) steps

/-- Window end of lines 100 to 108: nominal end is `start + size` clamped to
the text length; if that is strictly inside the text, scan backward from it
down to (exclusive) `max (start + size - 200) start` for a sentence
terminator and end just after it. The backward window is the hard-coded
constant 200 of line 105, independent of the overlap parameter. -/
def refineEnd (text : List Char) (start size : Nat) : Nat :=
  if min (start + size) text.length < text.length then
    match scanBack text (min (start + size) text.length)
        (min (start + size) text.length - max (start + size - 200) start) with
    | some i => i + 1
    | none => min (start + size) text.length
  else min (start + size) text.length

/-- Next window start of line 126, computed over the integers exactly as
Python does: `end - overlap` when the chunk did not reach the end of the
text, else `end`. For misconfigured parameters this value can be negative;
the loop below only runs it through `Int.toNat`, and every theorem below is
restricted to regimes where it is non-negative, hence exact. -/
def nextWindowStart (text : List Char) (start size overlap : Nat) : Int :=
  if refineEnd text start size < text.length then
    (refineEnd text start size : Int) - (overlap : Int)
  else (refineEnd text start size : Int)

/-- The stripped text of the window starting at `start`, line 110. -/
def windowText (text : List Char) (start size : Nat) : List Char :=
  pyStrip (pySlice text start (refineEnd text start size))

/-- The chunking loop of lines 99 to 126, with explicit fuel; `none` means
the fuel was exhausted, i.e. the Python loop would still be running after
that many iterations. Each iteration computes the refined window end, strips
the window text, emits a chunk (with id derived from the url and the count
of previously emitted chunks) when the stripped text is non-empty, and
advances the window start. -/
def createChunksGo (text : List Char) (url : String) (size overlap : Nat) :
    Nat → Nat → Nat → Option (List TextChunk)
  | 0, _, _ => none
  | fuel + 1, start, idx =>
    if start < text.length then
      if windowText text start size = [] then
        createChunksGo text url size overlap fuel
          (nextWindowStart text start size overlap).toNat idx
      else
        match createChunksGo text url size overlap fuel
            (nextWindowStart text start size overlap).toNat (idx + 1) with
        | some rest =>
            some ({ id := chunkId url idx, text := windowText text start size,
                    start_char := start, end_char := refineEnd text start size,
                    dom_selector := none } :: rest)
        | none => none
    else some []

/-- Model of `ContentExtractor._create_chunks` with the default parameters
of line 90 and 91 as defaults. Fuel `text.length + 1` is sufficient
whenever the loop makes forward progress (proved below for the regime
`overlap + 199 <= size`, which includes the defaults). -/
def createChunks (text : List Char) (url : String)
    (size : Nat := 1000) (overlap : Nat := 200) : Option (List TextChunk) :=
  createChunksGo text url size overlap (text.length + 1) 0 0

/-- Companion of the loop recording whether every window considered by the
run strips to non-empty text, i.e. whether the skip branch of line 112 is
ever taken. -/
def noSkipGo (text : List Char) (size overlap : Nat) : Nat → Nat → Bool
  | 0, _ => true
  | fuel + 1, start =>
    if start < text.length then
      if windowText text start size = [] then false
      else noSkipGo text size overlap fuel (nextWindowStart text start size overlap).toNat
    else true

/-- Whether a full chunking run over `text` never skips a window. -/
def noSkipChunks (text : List Char) (size : Nat := 1000) (overlap : Nat := 200) : Bool :=
  noSkipGo text size overlap (text.length + 1) 0

/-! ## Context assembly of llm_service.py -/

/-- Loop body of `LLMService._prepare_context`, lines 203 to 210: walk the
chunks in order, keeping a running character total, and stop before the
first chunk that would push the total over the budget. -/
def prepareGo (maxChars : Nat) : Nat → List TextChunk → List (List Char)
  | _, [] => []
  | total, c :: rest =>
      if maxChars < total + c.text.length then []
      else c.text :: prepareGo maxChars (total + c.text.length) rest

/-- Model of `LLMService._prepare_context` (default budget 8000): the kept
chunk texts joined by a blank line. -/
def prepareContext (chunks : List TextChunk) (maxChars : Nat := 8000) : List Char :=
  List.intercalate ['\n', '\n'] (prepareGo maxChars 0 chunks)

/-- Page section header of `compare_pages`, line 156: the word Page, the
1-based request-order position, the url in parentheses, a colon and a
newline. -/
def pageLabel (i : Nat) (url : String) : List Char :=
  ("Page ").data ++ (toString (i + 1)).data ++ (" (").data ++ url.data ++ ("):\n").data

/-- One labelled page section of `compare_pages`, line 156: the label
followed by the first 2000 characters of the page context assembled by
`_prepare_context`. -/
def pageSection (i : Nat) (url : String) (chunks : List TextChunk) : List Char :=
  pageLabel i url ++ (prepareContext chunks).take 2000

/-- The enumerate loop of `compare_pages`, lines 153 to 156, building one
labelled section per chunk group in request order. -/
def comparePagesGo (urls : List String) : Nat → List (List TextChunk) → List (List Char)
  | _, [] => []
  | i, chunks :: rest => pageSection i (urls.getD i "") chunks :: comparePagesGo urls (i + 1) rest

/-- Combined comparison context of `compare_pages`, line 158: the sections
joined by a separator line. -/
def comparePagesContext (pcl : List (List TextChunk)) (urls : List String) : List Char :=
  List.intercalate ("\n\n---\n\n").data (comparePagesGo urls 0 pcl)

/-! ## The sensitive-input detector

`detect_sensitive_inputs` (lines 159 to 174) is a function of the input
elements found by BeautifulSoup in the page; the parser itself is an
external library, so the detector is modelled over the parsed list of input
elements, each carrying its optional type, name and id attribute values as
authored. -/

/-- One parsed input element with the attributes the detector reads. -/
structure InputTag where
  type : Option String
  name : Option String
  idAttr : Option String
deriving DecidableEq, Repr

/-- Line 170: the name and id attribute values (missing attributes default
to the empty string) joined by a space and lower-cased. -/
def inputCombinedName (t : InputTag) : List Char :=
  ((t.name.getD "") ++ " " ++ (t.idAttr.getD "")).data.map asciiLower

/-- The card keywords of line 171. -/
def cardKeywords : List (List Char) :=
  [("card").data, ("cvv").data, ("ccv").data, ("credit").data]

/-- Python substring containment (the `in` operator on strings): `k` occurs
contiguously in `s`. -/
def containsSub (k : List Char) : List Char → Bool
  | [] => k.isEmpty
  | c :: rest => k.isPrefixOf (c :: rest) || containsSub k rest

/-- Line 171: whether any card keyword occurs as a substring of the
combined lower-cased name and id. -/
def hasCardKeyword (t : InputTag) : Bool :=
  cardKeywords.any fun k => containsSub k (inputCombinedName t)

/-- Model of `ContentExtractor.detect_sensitive_inputs`: the string
password once per input whose type attribute is exactly the string
password, then credit_card once per input whose combined name and id
contains a card keyword, deduplicated. Python returns `list(set(...))`,
whose iteration order is unspecified; `List.dedup` keeps the same set of
elements, and the claims below only concern membership and emptiness. -/
def detectSensitiveInputs (inputs : List InputTag) : List String :=
  (((inputs.filter fun t => t.type == some "password").map fun _ => "password") ++
   ((inputs.filter hasCardKeyword).map fun _ => "credit_card")).dedup

/-- A 300-character text with no sentence terminator, used to exercise the
chunking loop at the configuration size 200, overlap 200. -/
def c4LoopText : List Char := List.replicate 300 'a'

/-- A 400-character text whose only sentence terminator sits at index 101,
used to exercise the boundary refinement at size 300, overlap 250. -/
def c8WindowText : List Char :=
  List.replicate 101 'a' ++ '.' :: List.replicate 298 'a'

/-! # Theorems

First, structural lemmas about the matcher and the substitution pass. -/

/-- A successful match never consumes more characters than the subject has. -/
theorem reMatchF_le : ∀ (f : Nat) (ps : List RE) (prev : Option Char) (s : List Char)
    (n : Nat), reMatchF f ps prev s = some n → n ≤ s.length := by
  intro f
  induction f with
  | zero => intro ps prev s n h; simp [reMatchF] at h
  | succ f ih =>
    intro ps prev s n h
    match ps, s with
    | [], s =>
      simp only [reMatchF, Option.some.injEq] at h
      omega
    | RE.bnd :: ps, s =>
      simp only [reMatchF] at h
      split at h
      · exact ih _ _ _ _ h
      · exact absurd h (by simp)
    | RE.one p :: ps, [] => simp [reMatchF] at h
    | RE.one p :: ps, c :: rest =>
      simp only [reMatchF] at h
      split at h
      · rcases Option.map_eq_some'.mp h with ⟨t, ht, rfl⟩
        have := ih _ _ _ _ ht
        simp only [List.length_cons]
        omega
      · exact absurd h (by simp)
    | RE.opt p :: ps, [] => exact ih _ _ _ _ h
    | RE.opt p :: ps, c :: rest =>
      simp only [reMatchF] at h
      split at h
      · split at h
        · rename_i t ht
          cases h
          have := ih _ _ _ _ ht
          simp only [List.length_cons]
          omega
        · exact ih _ _ _ _ h
      · exact ih _ _ _ _ h
    | RE.many p :: ps, [] => exact ih _ _ _ _ h
    | RE.many p :: ps, c :: rest =>
      simp only [reMatchF] at h
      split at h
      · split at h
        · rename_i t ht
          cases h
          have := ih _ _ _ _ ht
          simp only [List.length_cons]
          omega
        · exact ih _ _ _ _ h
      · exact ih _ _ _ _ h

/-- A pattern that begins with a word boundary followed by a mandatory
character consumes at least one character when it matches. -/
theorem reMatchF_bnd_one_pos (f : Nat) (p : Char → Bool) (ps : List RE)
    (prev : Option Char) (s : List Char) (n : Nat)
    (h : reMatchF f (RE.bnd :: RE.one p :: ps) prev s = some n) : 1 ≤ n := by
  match f with
  | 0 => simp [reMatchF] at h
  | f + 1 =>
    simp only [reMatchF] at h
    split at h
    · match f, s with
      | 0, _ => simp [reMatchF] at h
      | f + 1, [] => simp [reMatchF] at h
      | f + 1, c :: rest =>
        simp only [reMatchF] at h
        split at h
        · rcases Option.map_eq_some'.mp h with ⟨t, _, rfl⟩
          omega
        · exact absurd h (by simp)
    · exact absurd h (by simp)

/-- The credit-card pattern consumes at least one character when it matches. -/
theorem ccPat_pos (f : Nat) (prev : Option Char) (s : List Char) (n : Nat)
    (h : reMatchF f ccPat prev s = some n) : 1 ≤ n :=
  reMatchF_bnd_one_pos f isDigitCh _ prev s n h

/-- The SSN pattern consumes at least one character when it matches. -/
theorem ssnPat_pos (f : Nat) (prev : Option Char) (s : List Char) (n : Nat)
    (h : reMatchF f ssnPat prev s = some n) : 1 ≤ n :=
  reMatchF_bnd_one_pos f isDigitCh _ prev s n h

/-- The email pattern consumes at least one character when it matches. -/
theorem emailPat_pos (f : Nat) (prev : Option Char) (s : List Char) (n : Nat)
    (h : reMatchF f emailPat prev s = some n) : 1 ≤ n :=
  reMatchF_bnd_one_pos f isLocalCh _ prev s n h

/-- A search result lies inside the subject. -/
theorem searchFrom_bound (pat : List RE) :
    ∀ (s : List Char) (prev : Option Char) (pos len : Nat),
      searchFrom pat prev s = some (pos, len) → pos + len ≤ s.length := by
  intro s
  induction s with
  | nil =>
    intro prev pos len h
    simp only [searchFrom] at h
    split at h
    · rename_i n hn
      cases h
      simpa using reMatchF_le _ _ _ _ _ hn
    · exact absurd h (by simp)
  | cons c rest ih =>
    intro prev pos len h
    simp only [searchFrom] at h
    split at h
    · rename_i n hn
      cases h
      simpa using reMatchF_le _ _ _ _ _ hn
    · split at h
      · rename_i p l hs
        cases h
        have := ih _ _ _ hs
        simp only [List.length_cons]
        omega
      · exact absurd h (by simp)

/-- If every match of the pattern is non-empty, so is every search result. -/
theorem searchFrom_len_pos (pat : List RE)
    (hp : ∀ f prev s n, reMatchF f pat prev s = some n → 1 ≤ n) :
    ∀ (s : List Char) (prev : Option Char) (pos len : Nat),
      searchFrom pat prev s = some (pos, len) → 1 ≤ len := by
  intro s
  induction s with
  | nil =>
    intro prev pos len h
    simp only [searchFrom] at h
    split at h
    · rename_i n hn
      cases h
      exact hp _ _ _ _ hn
    · exact absurd h (by simp)
  | cons c rest ih =>
    intro prev pos len h
    simp only [searchFrom] at h
    split at h
    · rename_i n hn
      cases h
      exact hp _ _ _ _ hn
    · split at h
      · rename_i p l hs
        cases h
        exact ih _ _ _ hs
      · exact absurd h (by simp)

/-- A substitution pass either leaves the text unchanged or leaves at least
one replacement marker in it. -/
theorem subTop_eq_or_marker (pat : List RE) (m : List Char)
    (hp : ∀ f prev s n, reMatchF f pat prev s = some n → 1 ≤ n) (s : List Char) :
    subTop pat m s = s ∨ m <:+: subTop pat m s := by
  unfold subTop subAllF
  cases h : searchFrom pat none s with
  | none => exact Or.inl (by simp only [h])
  | some pl =>
    obtain ⟨pos, len⟩ := pl
    have hlen : 1 ≤ len := searchFrom_len_pos pat hp _ _ _ _ h
    right
    simp only [h]
    rw [if_neg (by omega)]
    exact ⟨s.take pos, _, rfl⟩

/-- If the pattern matches somewhere, the substitution pass leaves at least
one replacement marker. -/
theorem subTop_marker_of_match (pat : List RE) (m : List Char)
    (hp : ∀ f prev s n, reMatchF f pat prev s = some n → 1 ≤ n) (s : List Char)
    (hm : hasMatch pat s = true) : m <:+: subTop pat m s := by
  unfold subTop subAllF
  unfold hasMatch at hm
  cases h : searchFrom pat none s with
  | none => rw [h] at hm; simp at hm
  | some pl =>
    obtain ⟨pos, len⟩ := pl
    have hlen : 1 ≤ len := searchFrom_len_pos pat hp _ _ _ _ h
    simp only [h]
    rw [if_neg (by omega)]
    exact ⟨s.take pos, _, rfl⟩

/-- C1, counterexample, refuting both universal guarantees of the claim.
First part: the first input is matched in full by the email pattern, but
the credit-card substitution, which runs first, consumes the digits of the
domain, after which the email pattern no longer matches anywhere; the
output carries a credit-card marker and no email marker, against the
claim that a corresponding marker always appears. Second part: in the
second input the credit-card pattern matches exactly the final 19
characters (offset 22, length 19, the substring 1234-5678-9012-3456); the
earlier copy of that very substring at offset 1 is preceded by a word
character, so no word boundary lets the pattern match there, and the
output still contains the matched substring, against the claim that the
output contains no occurrence of it. -/
theorem c1_counterexample :
    (hasMatch emailPat (("a@1234-5678-9012-3456.com").data) = true ∧
     normalizeAndRedact ("a@1234-5678-9012-3456.com").data =
       ("a@[REDACTED_CREDIT_CARD].com").data ∧
     ¬ emailMarker <:+: normalizeAndRedact ("a@1234-5678-9012-3456.com").data) ∧
    (searchFrom ccPat none ("x1234-5678-9012-3456x 1234-5678-9012-3456").data =
       some (22, 19) ∧
     pySlice ("x1234-5678-9012-3456x 1234-5678-9012-3456").data 22 (22 + 19) =
       ("1234-5678-9012-3456").data ∧
     normalizeAndRedact ("x1234-5678-9012-3456x 1234-5678-9012-3456").data =
       ("x1234-5678-9012-3456x [REDACTED_CREDIT_CARD]").data ∧
     ("1234-5678-9012-3456").data <:+:
       normalizeAndRedact ("x1234-5678-9012-3456x 1234-5678-9012-3456").data) := by
  exact ⟨⟨by decide, by decide, by decide⟩,
    by decide, by decide, by decide, by decide⟩

/-- C1, amended: the pipeline cleans whitespace first and then applies the
substitutions in the fixed order credit card, SSN, email, each replacing
every leftmost non-overlapping match of its pattern in the then-current
text by its marker; any input containing a substring matched by one of the
three patterns yields an output containing at least one redaction marker,
though possibly of an earlier category in the order, since an earlier
substitution may consume a later pattern's match. -/
theorem c1_redaction_order_and_marker (s : List Char)
    (h : hasMatch ccPat (cleanText s) = true ∨ hasMatch ssnPat (cleanText s) = true ∨
         hasMatch emailPat (cleanText s) = true) :
    normalizeAndRedact s =
      subTop emailPat emailMarker
        (subTop ssnPat ssnMarker (subTop ccPat ccMarker (cleanText s))) ∧
    (ccMarker <:+: normalizeAndRedact s ∨ ssnMarker <:+: normalizeAndRedact s ∨
     emailMarker <:+: normalizeAndRedact s) := by
  refine ⟨rfl, ?_⟩
  have hout : normalizeAndRedact s =
      subTop emailPat emailMarker
        (subTop ssnPat ssnMarker (subTop ccPat ccMarker (cleanText s))) := rfl
  set t := cleanText s with ht
  set r1 := subTop ccPat ccMarker t with hr1
  set r2 := subTop ssnPat ssnMarker r1 with hr2
  rw [hout]
  have d1 := subTop_eq_or_marker ccPat ccMarker ccPat_pos t
  have d2 := subTop_eq_or_marker ssnPat ssnMarker ssnPat_pos r1
  have d3 := subTop_eq_or_marker emailPat emailMarker emailPat_pos r2
  rw [← hr1] at d1
  rw [← hr2] at d2
  -- a marker present before the ssn and email passes survives or is
  -- superseded by the marker of the pass that changed the text
  have lift2 : ccMarker <:+: r1 →
      ccMarker <:+: r2 ∨ ssnMarker <:+: r2 := by
    intro hm
    rcases d2 with e2 | i2
    · rw [e2]; exact Or.inl hm
    · exact Or.inr i2
  have lift3 : ∀ m : List Char, m <:+: r2 →
      m <:+: subTop emailPat emailMarker r2 ∨
      emailMarker <:+: subTop emailPat emailMarker r2 := by
    intro m hm
    rcases d3 with e3 | i3
    · rw [e3]; exact Or.inl hm
    · exact Or.inr i3
  rcases h with hc | hs | he
  · have h1 : ccMarker <:+: r1 := subTop_marker_of_match ccPat ccMarker ccPat_pos t hc
    rcases lift2 h1 with h2 | h2
    · rcases lift3 _ h2 with h3 | h3
      · exact Or.inl h3
      · exact Or.inr (Or.inr h3)
    · rcases lift3 _ h2 with h3 | h3
      · exact Or.inr (Or.inl h3)
      · exact Or.inr (Or.inr h3)
  · rcases d1 with e1 | i1
    · have h2 : ssnMarker <:+: r2 := by
        rw [hr2, e1]
        exact subTop_marker_of_match ssnPat ssnMarker ssnPat_pos t hs
      rcases lift3 _ h2 with h3 | h3
      · exact Or.inr (Or.inl h3)
      · exact Or.inr (Or.inr h3)
    · rcases lift2 i1 with h2 | h2
      · rcases lift3 _ h2 with h3 | h3
        · exact Or.inl h3
        · exact Or.inr (Or.inr h3)
      · rcases lift3 _ h2 with h3 | h3
        · exact Or.inr (Or.inl h3)
        · exact Or.inr (Or.inr h3)
  · rcases d1 with e1 | i1
    · rcases d2 with e2 | i2
      · have h3 : emailMarker <:+: subTop emailPat emailMarker r2 := by
          rw [e2, e1]
          exact subTop_marker_of_match emailPat emailMarker emailPat_pos t he
        exact Or.inr (Or.inr h3)
      · rcases lift3 _ i2 with h3 | h3
        · exact Or.inr (Or.inl h3)
        · exact Or.inr (Or.inr h3)
    · rcases lift2 i1 with h2 | h2
      · rcases lift3 _ h2 with h3 | h3
        · exact Or.inl h3
        · exact Or.inr (Or.inr h3)
      · rcases lift3 _ h2 with h3 | h3
        · exact Or.inr (Or.inl h3)
        · exact Or.inr (Or.inr h3)

/-- C1, witness: a concrete input whose email address is redacted. -/
theorem c1_witness :
    (hasMatch ccPat (cleanText ("Contact me at a@b.com").data) = true ∨
     hasMatch ssnPat (cleanText ("Contact me at a@b.com").data) = true ∨
     hasMatch emailPat (cleanText ("Contact me at a@b.com").data) = true) ∧
    (ccMarker <:+: normalizeAndRedact ("Contact me at a@b.com").data ∨
     ssnMarker <:+: normalizeAndRedact ("Contact me at a@b.com").data ∨
     emailMarker <:+: normalizeAndRedact ("Contact me at a@b.com").data) :=
  ⟨Or.inr (Or.inr (by decide)),
   (c1_redaction_order_and_marker ("Contact me at a@b.com").data
     (Or.inr (Or.inr (by decide)))).2⟩

/-- C2: an input with type attribute exactly password puts password in the
result; an input whose lower-cased space-joined name and id contain a card
keyword puts credit_card in the result; with neither kind present the
result is empty. -/
theorem c2_detector (inputs : List InputTag) :
    ((∃ t ∈ inputs, t.type = some "password") →
      "password" ∈ detectSensitiveInputs inputs) ∧
    ((∃ t ∈ inputs, hasCardKeyword t = true) →
      "credit_card" ∈ detectSensitiveInputs inputs) ∧
    ((∀ t ∈ inputs, t.type ≠ some "password" ∧ hasCardKeyword t = false) →
      detectSensitiveInputs inputs = []) := by
  unfold detectSensitiveInputs
  refine ⟨?_, ?_, ?_⟩
  · rintro ⟨t, ht, hty⟩
    rw [List.mem_dedup, List.mem_append]
    left
    rw [List.mem_map]
    exact ⟨t, List.mem_filter.mpr ⟨ht, by simp [hty]⟩, rfl⟩
  · rintro ⟨t, ht, hck⟩
    rw [List.mem_dedup, List.mem_append]
    right
    rw [List.mem_map]
    exact ⟨t, List.mem_filter.mpr ⟨ht, hck⟩, rfl⟩
  · intro hall
    have h1 : inputs.filter (fun t => t.type == some "password") = [] := by
      rw [List.filter_eq_nil_iff]
      intro t ht
      simp [(hall t ht).1]
    have h2 : inputs.filter hasCardKeyword = [] := by
      rw [List.filter_eq_nil_iff]
      intro t ht
      simp [(hall t ht).2]
    rw [h1, h2]
    rfl

/-- C2, witness: a password input and a card-named input are both flagged,
and an unrelated input yields the empty result. -/
theorem c2_witness :
    "password" ∈ detectSensitiveInputs
      [⟨some "password", none, none⟩, ⟨none, some "cc-card-number", none⟩] ∧
    "credit_card" ∈ detectSensitiveInputs
      [⟨some "password", none, none⟩, ⟨none, some "cc-card-number", none⟩] ∧
    detectSensitiveInputs [⟨some "text", some "q", some "searchbox"⟩] = [] := by
  refine ⟨(c2_detector _).1 ⟨⟨some "password", none, none⟩, by decide, rfl⟩,
    (c2_detector _).2.1 ⟨⟨none, some "cc-card-number", none⟩, by decide, by decide⟩,
    (c2_detector _).2.2 (by decide)⟩

/-- Helper for C3: the assembly loop keeps exactly the greedy maximal
prefix of chunks whose cumulative text length, added to the running total,
stays within the budget, and the first excluded chunk, if any, would
overflow it. -/
theorem prepareGo_spec (maxChars : Nat) :
    ∀ (chunks : List TextChunk) (total : Nat), total ≤ maxChars →
      ∃ k, k ≤ chunks.length ∧
        prepareGo maxChars total chunks = (chunks.take k).map (fun c => c.text) ∧
        total + ((chunks.take k).map fun c => c.text.length).sum ≤ maxChars ∧
        (∀ hk : k < chunks.length,
          maxChars < total + ((chunks.take k).map fun c => c.text.length).sum +
            (chunks.get ⟨k, hk⟩).text.length) := by
  intro chunks
  induction chunks with
  | nil =>
    intro total htot
    exact ⟨0, by simp, by simp [prepareGo], by simpa, by simp⟩
  | cons c rest ih =>
    intro total htot
    by_cases hc : maxChars < total + c.text.length
    · refine ⟨0, by simp, ?_, by simpa, ?_⟩
      · simp [prepareGo, if_pos hc]
      · intro hk
        simpa using hc
    · push_neg at hc
      obtain ⟨k, hk, hgo, hsum, hbound⟩ := ih (total + c.text.length) hc
      have hstep : prepareGo maxChars total (c :: rest) =
          c.text :: prepareGo maxChars (total + c.text.length) rest := by
        simp only [prepareGo]
        rw [if_neg (by omega)]
      refine ⟨k + 1, by simpa using hk, ?_, ?_, ?_⟩
      · rw [hstep, hgo, List.take_succ_cons, List.map_cons]
      · simp only [List.take_succ_cons, List.map_cons, List.sum_cons]
        omega
      · intro hkk
        have := hbound (by simpa using hkk)
        simp only [List.take_succ_cons, List.map_cons, List.sum_cons, List.get_cons_succ]
        omega

/-- C3, counterexample. The claim states that the first chunk is always
included even when it alone exceeds the budget, making the output non-empty
whenever the chunk list is non-empty. The loop of `_prepare_context` breaks
before the first chunk too: a single six-character chunk under a budget of
five produces the empty string. -/
theorem c3_counterexample :
    prepareContext [⟨"c0", ("abcdef").data, 0, 6, none⟩] 5 = [] ∧
    ([⟨"c0", ("abcdef").data, 0, 6, none⟩] : List TextChunk) ≠ [] :=
  ⟨by decide, by decide⟩

/-- C3, amended: the assembler concatenates the texts of a greedy prefix of
the chunk list in input order, separated by a blank line, stopping before
the first chunk that would push the cumulative chunk-character count over
the budget; a chunk is never split, and this applies to the first chunk as
well, so the output can be empty even when the chunk list is not. -/
theorem c3_prepare_greedy (chunks : List TextChunk) (maxChars : Nat) :
    ∃ k, k ≤ chunks.length ∧
      prepareContext chunks maxChars =
        List.intercalate ['\n', '\n'] ((chunks.take k).map fun c => c.text) ∧
      ((chunks.take k).map fun c => c.text.length).sum ≤ maxChars ∧
      (∀ hk : k < chunks.length,
        maxChars < ((chunks.take k).map fun c => c.text.length).sum +
          (chunks.get ⟨k, hk⟩).text.length) := by
  obtain ⟨k, hk, hgo, hsum, hbound⟩ := prepareGo_spec maxChars chunks 0 (Nat.zero_le _)
  refine ⟨k, hk, ?_, by simpa using hsum, fun hkk => by simpa using hbound hkk⟩
  rw [prepareContext, hgo]

/-- C3, witness: with a budget of three characters, of two two-character
chunks only the first is kept. -/
theorem c3_witness :
    ∃ k, k ≤ ([⟨"a", ("ab").data, 0, 2, none⟩, ⟨"b", ("cd").data, 2, 4, none⟩] :
        List TextChunk).length ∧
      prepareContext [⟨"a", ("ab").data, 0, 2, none⟩, ⟨"b", ("cd").data, 2, 4, none⟩] 3 =
        List.intercalate ['\n', '\n']
          ((([⟨"a", ("ab").data, 0, 2, none⟩, ⟨"b", ("cd").data, 2, 4, none⟩] :
            List TextChunk).take k).map fun c => c.text) ∧
      ((([⟨"a", ("ab").data, 0, 2, none⟩, ⟨"b", ("cd").data, 2, 4, none⟩] :
        List TextChunk).take k).map fun c => c.text.length).sum ≤ 3 ∧
      (∀ hk : k < ([⟨"a", ("ab").data, 0, 2, none⟩, ⟨"b", ("cd").data, 2, 4, none⟩] :
          List TextChunk).length,
        3 < ((([⟨"a", ("ab").data, 0, 2, none⟩, ⟨"b", ("cd").data, 2, 4, none⟩] :
          List TextChunk).take k).map fun c => c.text.length).sum +
          (([⟨"a", ("ab").data, 0, 2, none⟩, ⟨"b", ("cd").data, 2, 4, none⟩] :
            List TextChunk).get ⟨k, hk⟩).text.length) :=
  c3_prepare_greedy _ 3

/-- Stripping yields a contiguous part of the original list. -/
theorem pyStrip_part (l : List Char) : pyStrip l <:+: l := by
  refine ⟨l.takeWhile isPySpace,
    ((l.dropWhile isPySpace).reverse.takeWhile isPySpace).reverse, ?_⟩
  have h2 : ((l.dropWhile isPySpace).reverse.takeWhile isPySpace ++
      (l.dropWhile isPySpace).reverse.dropWhile isPySpace).reverse =
      (l.dropWhile isPySpace).reverse.reverse := by
    rw [List.takeWhile_append_dropWhile]
  rw [List.reverse_append, List.reverse_reverse] at h2
  calc l.takeWhile isPySpace ++ pyStrip l ++
        ((l.dropWhile isPySpace).reverse.takeWhile isPySpace).reverse
      = l.takeWhile isPySpace ++ (pyStrip l ++
        ((l.dropWhile isPySpace).reverse.takeWhile isPySpace).reverse) := by
        rw [List.append_assoc]
    _ = l.takeWhile isPySpace ++ l.dropWhile isPySpace := by rw [pyStrip, h2]
    _ = l := List.takeWhile_append_dropWhile isPySpace l

/-- A non-empty slice pins its endpoints: the window start is strictly
before its end and inside the text. -/
theorem pySlice_ne_nil (text : List Char) (s e : Nat) (h : pySlice text s e ≠ []) :
    s < e ∧ s < text.length := by
  rw [pySlice] at h
  constructor
  · rcases Nat.lt_or_ge s e with h1 | h1
    · exact h1
    · exfalso
      apply h
      have he : e - s = 0 := by omega
      rw [he]
      simp
  · by_contra hc
    push_neg at hc
    rw [List.drop_eq_nil_of_le hc] at h
    simp at h

/-- The backward scan only reports indices in the scanned range. -/
theorem scanBack_bounds (text : List Char) :
    ∀ (steps i j : Nat), scanBack text i steps = some j → j ≤ i ∧ i < j + steps := by
  intro steps
  induction steps with
  | zero => intro i j h; simp [scanBack] at h
  | succ steps ih =>
    intro i j h
    rw [scanBack] at h
    split at h
    · cases h
      omega
    · have := ih (i - 1) j h
      omega

/-- The refined window end never passes the end of the text. -/
theorem refineEnd_le (text : List Char) (start size : Nat) :
    refineEnd text start size ≤ text.length := by
  rw [refineEnd]
  split
  · split
    · rename_i he0 i hi
      have := scanBack_bounds text _ _ _ hi
      omega
    · omega
  · omega

/-- When the nominal window end is strictly inside the text, the refined
end stays above the lower edge of the backward-scan range. -/
theorem refineEnd_lower (text : List Char) (start size : Nat)
    (h : start + size < text.length) (hs : 2 ≤ size) :
    max (start + size - 200) start + 2 ≤ refineEnd text start size := by
  have hmin : min (start + size) text.length = start + size := by omega
  rw [refineEnd, hmin, if_pos (by omega)]
  split
  · rename_i i hi
    have hb := scanBack_bounds text _ _ _ hi
    omega
  · omega

/-- Forward progress: in the regime where the overlap is at least 199 below
the window size (which includes the default size 1000, overlap 200), a
window end strictly inside the text lies strictly above the current start
plus the overlap. -/
theorem refineEnd_progress (text : List Char) (start size overlap : Nat)
    (H : 199 + overlap ≤ size) (he : refineEnd text start size < text.length) :
    start + overlap + 1 ≤ refineEnd text start size := by
  have h0 : start + size < text.length := by
    by_contra hc
    push_neg at hc
    have : refineEnd text start size = min (start + size) text.length := by
      rw [refineEnd, if_neg (by omega)]
    omega
  have hl := refineEnd_lower text start size h0 (by omega)
  have h1 : start + size - 200 ≤ max (start + size - 200) start := Nat.le_max_left _ _
  have h2 : start ≤ max (start + size - 200) start := Nat.le_max_right _ _
  omega

/-- In the progress regime, the integer next window start of a
non-final window equals the natural-number value `end - overlap` and is
strictly positive, so the `Int.toNat` conversion used by the loop is exact. -/
theorem nextWindowStart_eq (text : List Char) (start size overlap : Nat)
    (H : 199 + overlap ≤ size) (he : refineEnd text start size < text.length) :
    nextWindowStart text start size overlap =
      ((refineEnd text start size - overlap : Nat) : Int) ∧
    start + 1 ≤ refineEnd text start size - overlap := by
  have hp := refineEnd_progress text start size overlap H he
  rw [nextWindowStart, if_pos he]
  constructor
  · omega
  · omega

/-- A final window (one whose end is not strictly inside the text) ends
exactly at the text end, and the loop then stops. -/
theorem refineEnd_final (text : List Char) (start size : Nat)
    (he : ¬ refineEnd text start size < text.length) :
    refineEnd text start size = text.length :=
  Nat.le_antisymm (refineEnd_le text start size) (by omega)

/-- A successful backward scan returns the largest terminator index of the
scanned range: the reported index holds a terminator, lies in the range,
and every index strictly above it in the range holds none. -/
theorem scanBack_found (text : List Char) :
    ∀ (steps i j : Nat), scanBack text i steps = some j →
      isSentenceEnd (text.get? j) = true ∧ j ≤ i ∧ i < j + steps ∧
      ∀ k, j < k → k ≤ i → isSentenceEnd (text.get? k) = false := by
  intro steps
  induction steps with
  | zero => intro i j h; simp [scanBack] at h
  | succ steps ih =>
    intro i j h
    rw [scanBack] at h
    split at h
    · rename_i hterm
      injection h with h
      subst h
      refine ⟨hterm, Nat.le_refl _, by omega, ?_⟩
      intro k hk1 hk2
      exact absurd hk2 (by omega)
    · rename_i hterm
      obtain ⟨h1, h2, h3, h4⟩ := ih (i - 1) j h
      refine ⟨h1, by omega, by omega, ?_⟩
      intro k hk1 hk2
      by_cases hki : k = i
      · subst hki
        simpa using hterm
      · exact h4 k hk1 (by omega)

/-- A failed backward scan means no index of the scanned range holds a
terminator. -/
theorem scanBack_none (text : List Char) :
    ∀ (steps i : Nat), scanBack text i steps = none →
      ∀ k, k ≤ i → i < k + steps → isSentenceEnd (text.get? k) = false := by
  intro steps
  induction steps with
  | zero =>
    intro i h k hk1 hk2
    exact absurd hk2 (by omega)
  | succ steps ih =>
    intro i h k hk1 hk2
    rw [scanBack] at h
    split at h
    · exact absurd h (by simp)
    · rename_i hterm
      by_cases hki : k = i
      · subst hki
        simpa using hterm
      · exact ih (i - 1) h k (by omega) (by omega)

/-- The refined window end is monotone in the window start: a later window
never refines to an earlier end. The backward-scan ranges of two starts
overlap except at their edges, and the scan picks the largest terminator of
its range, which makes the comparison go through in every combination of
found and not-found outcomes. -/
theorem refineEnd_mono (text : List Char) (size : Nat) :
    ∀ s t : Nat, s ≤ t → refineEnd text s size ≤ refineEnd text t size := by
  intro s t hst
  rcases Nat.eq_or_lt_of_le hst with rfl | hlt
  · exact Nat.le_refl _
  by_cases hs0 : min (s + size) text.length < text.length
  · by_cases ht0 : min (t + size) text.length < text.length
    · have hmins : min (s + size) text.length = s + size := by omega
      have hmint : min (t + size) text.length = t + size := by omega
      cases hss : scanBack text (s + size) (s + size - max (s + size - 200) s) with
      | some j =>
        have hsE : refineEnd text s size = j + 1 := by
          rw [refineEnd, if_pos hs0, hmins, hss]
        obtain ⟨hterm, hji, hjs, _⟩ := scanBack_found text _ _ _ hss
        cases htt : scanBack text (t + size) (t + size - max (t + size - 200) t) with
        | some j' =>
          have htE : refineEnd text t size = j' + 1 := by
            rw [refineEnd, if_pos ht0, hmint, htt]
          obtain ⟨_, hji', hjs', hmax'⟩ := scanBack_found text _ _ _ htt
          rw [hsE, htE]
          by_contra hc
          push_neg at hc
          have hbad := hmax' j (by omega) (by omega)
          rw [hterm] at hbad
          simp at hbad
        | none =>
          have htE : refineEnd text t size = t + size := by
            rw [refineEnd, if_pos ht0, hmint, htt]
          rw [hsE, htE]
          omega
      | none =>
        have hsE : refineEnd text s size = s + size := by
          rw [refineEnd, if_pos hs0, hmins, hss]
        have hnone := scanBack_none text _ _ hss
        cases htt : scanBack text (t + size) (t + size - max (t + size - 200) t) with
        | some j' =>
          have htE : refineEnd text t size = j' + 1 := by
            rw [refineEnd, if_pos ht0, hmint, htt]
          obtain ⟨hterm', hji', hjs', _⟩ := scanBack_found text _ _ _ htt
          rw [hsE, htE]
          by_cases hj' : j' ≤ s + size
          · have hbad := hnone j' hj' (by omega)
            rw [hterm'] at hbad
            simp at hbad
          · omega
        | none =>
          have htE : refineEnd text t size = t + size := by
            rw [refineEnd, if_pos ht0, hmint, htt]
          rw [hsE, htE]
          omega
    · have htE : refineEnd text t size = text.length := by
        rw [refineEnd, if_neg ht0]
        omega
      rw [htE]
      exact refineEnd_le text s size
  · have hsE : refineEnd text s size = text.length := by
      rw [refineEnd, if_neg hs0]
      omega
    have ht0 : ¬ min (t + size) text.length < text.length := by omega
    have htE : refineEnd text t size = text.length := by
      rw [refineEnd, if_neg ht0]
      omega
    rw [hsE, htE]

/-- The next-start map is monotone wherever the later of the two windows
still ends strictly inside the text. -/
theorem nextWindowStart_toNat_mono (text : List Char) (size overlap : Nat)
    (s t : Nat) (hst : s ≤ t) (ht : refineEnd text t size < text.length) :
    (nextWindowStart text s size overlap).toNat ≤
      (nextWindowStart text t size overlap).toNat := by
  have hmono := refineEnd_mono text size s t hst
  have hs : refineEnd text s size < text.length := by omega
  rw [nextWindowStart, if_pos hs, nextWindowStart, if_pos ht]
  omega

/-- A stalled state never returns: if the next start from a state does not
move strictly forward, then by monotonicity of the next-start map every
later state is stalled as well, so the loop runs forever and the run
produces no chunk list for any iteration budget. -/
theorem createChunksGo_stalled (text : List Char) (url : String) (size overlap : Nat) :
    ∀ (fuel t idx : Nat), t < text.length →
      refineEnd text t size < text.length →
      (nextWindowStart text t size overlap).toNat ≤ t →
      createChunksGo text url size overlap fuel t idx = none := by
  intro fuel
  induction fuel with
  | zero => intro t idx _ _ _; rfl
  | succ fuel ih =>
    intro t idx ht he hf
    rw [createChunksGo, if_pos ht]
    have ht' : (nextWindowStart text t size overlap).toNat < text.length := by omega
    have he' : refineEnd text (nextWindowStart text t size overlap).toNat size <
        text.length := by
      have := refineEnd_mono text size (nextWindowStart text t size overlap).toNat t hf
      omega
    have hf' := nextWindowStart_toNat_mono text size overlap
      (nextWindowStart text t size overlap).toNat t hf he
    have hrec : ∀ idx2, createChunksGo text url size overlap fuel
        (nextWindowStart text t size overlap).toNat idx2 = none :=
      fun idx2 => ih _ idx2 ht' he' hf'
    by_cases hw : windowText text t size = []
    · rw [if_pos hw]
      exact hrec idx
    · rw [if_neg hw, hrec (idx + 1)]

/-- The case split on the next window start used by the loop lemmas: either
the window ends strictly inside the text and the next start is exactly
`end - overlap`, strictly beyond the current start, or the window reaches
the text end and the next start equals the text length. -/
theorem nextWindowStart_toNat_cases (text : List Char) (start size overlap : Nat)
    (H : 199 + overlap ≤ size) :
    (refineEnd text start size < text.length ∧
     (nextWindowStart text start size overlap).toNat = refineEnd text start size - overlap ∧
     start + 1 ≤ (nextWindowStart text start size overlap).toNat ∧
     (nextWindowStart text start size overlap).toNat ≤ refineEnd text start size) ∨
    (¬ refineEnd text start size < text.length ∧
     (nextWindowStart text start size overlap).toNat = text.length) := by
  by_cases he : refineEnd text start size < text.length
  · left
    obtain ⟨h1, h2⟩ := nextWindowStart_eq text start size overlap H he
    rw [h1]
    refine ⟨he, by omega, by omega, by omega⟩
  · right
    refine ⟨he, ?_⟩
    rw [nextWindowStart, if_neg he, refineEnd_final text start size he]
    omega

/-- Past the end of the text the loop stops with no further chunks. -/
theorem createChunksGo_at_end (text : List Char) (url : String)
    (size overlap fuel start idx : Nat) (cs : List TextChunk)
    (h : createChunksGo text url size overlap fuel start idx = some cs)
    (hge : text.length ≤ start) : cs = [] := by
  match fuel with
  | 0 => simp [createChunksGo] at h
  | fuel + 1 =>
    rw [createChunksGo, if_neg (by omega)] at h
    simpa using h.symm

/-- Every emitted chunk records the stripped slice of the text at its span,
which is non-empty, and its span is non-degenerate and inside the text. -/
theorem createChunksGo_text (text : List Char) (url : String) (size overlap : Nat) :
    ∀ (fuel start idx : Nat) (cs : List TextChunk),
      createChunksGo text url size overlap fuel start idx = some cs →
      ∀ c ∈ cs,
        c.text = pyStrip (pySlice text c.start_char c.end_char) ∧
        c.text ≠ [] ∧ c.start_char < c.end_char ∧ c.end_char ≤ text.length := by
  intro fuel
  induction fuel with
  | zero => intro start idx cs h; simp [createChunksGo] at h
  | succ fuel ih =>
    intro start idx cs h
    rw [createChunksGo] at h
    by_cases hs : start < text.length
    · rw [if_pos hs] at h
      by_cases hw : windowText text start size = []
      · rw [if_pos hw] at h
        exact ih _ _ _ h
      · rw [if_neg hw] at h
        cases hrec : createChunksGo text url size overlap fuel
            (nextWindowStart text start size overlap).toNat (idx + 1) with
        | none => rw [hrec] at h; exact absurd h (by simp)
        | some rest =>
          rw [hrec] at h
          injection h with h
          subst h
          intro c hc
          rcases List.mem_cons.mp hc with rfl | hc
          · have hsl : pySlice text start (refineEnd text start size) ≠ [] := by
              intro hnil
              apply hw
              rw [windowText, hnil]
              rfl
            exact ⟨rfl, hw, (pySlice_ne_nil _ _ _ hsl).1, refineEnd_le text start size⟩
          · exact ih _ _ _ hrec c hc
    · rw [if_neg hs] at h
      injection h with h
      intro c hc
      rw [← h] at hc
      simp at hc

/-- Every chunk emitted from a state starts at or after that state's
window start, for every configuration: a run whose next start fails to move
strictly forward is stalled and never returns, so a returning run only ever
moves forward. -/
theorem createChunksGo_mono (text : List Char) (url : String) (size overlap : Nat) :
    ∀ (fuel start idx : Nat) (cs : List TextChunk),
      createChunksGo text url size overlap fuel start idx = some cs →
      ∀ c ∈ cs, start ≤ c.start_char := by
  intro fuel
  induction fuel with
  | zero => intro start idx cs h; simp [createChunksGo] at h
  | succ fuel ih =>
    intro start idx cs h
    rw [createChunksGo] at h
    by_cases hs : start < text.length
    · rw [if_pos hs] at h
      by_cases he : refineEnd text start size < text.length
      · by_cases hstall : (nextWindowStart text start size overlap).toNat ≤ start
        · have ht' : (nextWindowStart text start size overlap).toNat < text.length := by
            omega
          have he' : refineEnd text (nextWindowStart text start size overlap).toNat size <
              text.length := by
            have := refineEnd_mono text size
              (nextWindowStart text start size overlap).toNat start hstall
            omega
          have hf' := nextWindowStart_toNat_mono text size overlap
            (nextWindowStart text start size overlap).toNat start hstall he
          have hnone : ∀ idx2, createChunksGo text url size overlap fuel
              (nextWindowStart text start size overlap).toNat idx2 = none :=
            fun idx2 => createChunksGo_stalled text url size overlap fuel _ idx2 ht' he' hf'
          by_cases hw : windowText text start size = []
          · rw [if_pos hw, hnone idx] at h
            exact absurd h (by simp)
          · rw [if_neg hw] at h
            cases hrec : createChunksGo text url size overlap fuel
                (nextWindowStart text start size overlap).toNat (idx + 1) with
            | none => rw [hrec] at h; exact absurd h (by simp)
            | some rest =>
              rw [hnone (idx + 1)] at hrec
              exact absurd hrec (by simp)
        · push_neg at hstall
          by_cases hw : windowText text start size = []
          · rw [if_pos hw] at h
            intro c hc
            have := ih _ _ _ h c hc
            omega
          · rw [if_neg hw] at h
            cases hrec : createChunksGo text url size overlap fuel
                (nextWindowStart text start size overlap).toNat (idx + 1) with
            | none => rw [hrec] at h; exact absurd h (by simp)
            | some rest =>
              rw [hrec] at h
              injection h with h
              subst h
              intro c hc
              rcases List.mem_cons.mp hc with rfl | hc
              · exact Nat.le_refl _
              · have := ih _ _ _ hrec c hc
                omega
      · have hnx : (nextWindowStart text start size overlap).toNat = text.length := by
          rw [nextWindowStart, if_neg he, refineEnd_final text start size he]
          omega
        by_cases hw : windowText text start size = []
        · rw [if_pos hw] at h
          intro c hc
          rw [createChunksGo_at_end text url size overlap fuel _ _ _ h (by omega)] at hc
          simp at hc
        · rw [if_neg hw] at h
          cases hrec : createChunksGo text url size overlap fuel
              (nextWindowStart text start size overlap).toNat (idx + 1) with
          | none => rw [hrec] at h; exact absurd h (by simp)
          | some rest =>
            rw [hrec] at h
            injection h with h
            subst h
            intro c hc
            rcases List.mem_cons.mp hc with rfl | hc
            · exact Nat.le_refl _
            · rw [createChunksGo_at_end text url size overlap fuel _ _ _ hrec (by omega)] at hc
              simp at hc
    · rw [if_neg hs] at h
      injection h with h
      intro c hc
      rw [← h] at hc
      simp at hc

/-- Consecutive emitted chunks have strictly increasing starts and each
chunk's end exceeds the next start by at most the overlap, for every
configuration: any step violating forward progress stalls the loop
forever, so it cannot occur in a returning run. -/
theorem createChunksGo_chain (text : List Char) (url : String) (size overlap : Nat) :
    ∀ (fuel start idx : Nat) (cs : List TextChunk),
      createChunksGo text url size overlap fuel start idx = some cs →
      List.Chain' (fun a b => a.start_char < b.start_char ∧
        a.end_char ≤ b.start_char + overlap) cs := by
  intro fuel
  induction fuel with
  | zero => intro start idx cs h; simp [createChunksGo] at h
  | succ fuel ih =>
    intro start idx cs h
    rw [createChunksGo] at h
    by_cases hs : start < text.length
    · rw [if_pos hs] at h
      by_cases hw : windowText text start size = []
      · rw [if_pos hw] at h
        exact ih _ _ _ h
      · rw [if_neg hw] at h
        cases hrec : createChunksGo text url size overlap fuel
            (nextWindowStart text start size overlap).toNat (idx + 1) with
        | none => rw [hrec] at h; exact absurd h (by simp)
        | some rest =>
          rw [hrec] at h
          injection h with h
          subst h
          rw [List.chain'_cons']
          refine ⟨?_, ih _ _ _ hrec⟩
          intro b hb
          have hbmem : b ∈ rest := List.mem_of_mem_head? hb
          by_cases he : refineEnd text start size < text.length
          · by_cases hstall : (nextWindowStart text start size overlap).toNat ≤ start
            · have ht' : (nextWindowStart text start size overlap).toNat < text.length := by
                omega
              have he' : refineEnd text (nextWindowStart text start size overlap).toNat size <
                  text.length := by
                have := refineEnd_mono text size
                  (nextWindowStart text start size overlap).toNat start hstall
                omega
              have hf' := nextWindowStart_toNat_mono text size overlap
                (nextWindowStart text start size overlap).toNat start hstall he
              have hnone := createChunksGo_stalled text url size overlap fuel _ (idx + 1)
                ht' he' hf'
              rw [hnone] at hrec
              exact absurd hrec (by simp)
            · push_neg at hstall
              have hfeq : (nextWindowStart text start size overlap).toNat =
                  refineEnd text start size - overlap := by
                rw [nextWindowStart, if_pos he]
                omega
              have hbs := createChunksGo_mono text url size overlap _ _ _ _ hrec b hbmem
              constructor
              · show start < b.start_char
                omega
              · show refineEnd text start size ≤ b.start_char + overlap
                omega
          · have hnx : (nextWindowStart text start size overlap).toNat = text.length := by
              rw [nextWindowStart, if_neg he, refineEnd_final text start size he]
              omega
            rw [createChunksGo_at_end text url size overlap fuel _ _ _ hrec (by omega)] at hb
            simp at hb
    · rw [if_neg hs] at h
      injection h with h
      rw [← h]
      simp

/-- The sequence of emitted chunk ids is exactly the id function applied to
consecutive indices from the starting index. -/
theorem createChunksGo_ids (text : List Char) (url : String) (size overlap : Nat) :
    ∀ (fuel start idx : Nat) (cs : List TextChunk),
      createChunksGo text url size overlap fuel start idx = some cs →
      cs.map (fun c => c.id) =
        (List.range cs.length).map (fun j => chunkId url (idx + j)) := by
  intro fuel
  induction fuel with
  | zero => intro start idx cs h; simp [createChunksGo] at h
  | succ fuel ih =>
    intro start idx cs h
    rw [createChunksGo] at h
    by_cases hs : start < text.length
    · rw [if_pos hs] at h
      by_cases hw : windowText text start size = []
      · rw [if_pos hw] at h
        exact ih _ _ _ h
      · rw [if_neg hw] at h
        cases hrec : createChunksGo text url size overlap fuel
            (nextWindowStart text start size overlap).toNat (idx + 1) with
        | none => rw [hrec] at h; exact absurd h (by simp)
        | some rest =>
          rw [hrec] at h
          injection h with h
          subst h
          have hih := ih _ _ _ hrec
          simp only [List.map_cons, List.length_cons, List.range_succ_eq_map,
            List.map_map]
          congr 1
          rw [hih]
          apply List.map_congr_left
          intro a _
          simp only [Function.comp_apply]
          congr 1
          omega
    · rw [if_neg hs] at h
      injection h with h
      rw [← h]
      simp

/-- In the progress regime the loop terminates within `length - start + 1`
iterations. -/
theorem createChunksGo_isSome (text : List Char) (url : String) (size overlap : Nat)
    (H : 199 + overlap ≤ size) :
    ∀ (fuel start idx : Nat), text.length - start < fuel →
      (createChunksGo text url size overlap fuel start idx).isSome = true := by
  intro fuel
  induction fuel with
  | zero => intro start idx hf; omega
  | succ fuel ih =>
    intro start idx hf
    rw [createChunksGo]
    by_cases hs : start < text.length
    · rw [if_pos hs]
      rcases nextWindowStart_toNat_cases text start size overlap H with
        ⟨he, heq, hge, hle⟩ | ⟨he, heq⟩
      · by_cases hw : windowText text start size = []
        · rw [if_pos hw]
          exact ih _ idx (by omega)
        · rw [if_neg hw]
          have h2 := ih ((nextWindowStart text start size overlap).toNat) (idx + 1) (by omega)
          cases hrec : createChunksGo text url size overlap fuel
              (nextWindowStart text start size overlap).toNat (idx + 1) with
          | none => rw [hrec] at h2; simp at h2
          | some rest => simp
      · by_cases hw : windowText text start size = []
        · rw [if_pos hw]
          exact ih _ idx (by omega)
        · rw [if_neg hw]
          have h2 := ih ((nextWindowStart text start size overlap).toNat) (idx + 1) (by omega)
          cases hrec : createChunksGo text url size overlap fuel
              (nextWindowStart text start size overlap).toNat (idx + 1) with
          | none => rw [hrec] at h2; simp at h2
          | some rest => simp
    · rw [if_neg hs]
      simp

/-- When no window of the run strips to empty text, the emitted spans cover
every position from the current start to the end of the text. -/
theorem createChunksGo_cover (text : List Char) (url : String) (size overlap : Nat) :
    ∀ (fuel start idx : Nat) (cs : List TextChunk),
      createChunksGo text url size overlap fuel start idx = some cs →
      noSkipGo text size overlap fuel start = true →
      ∀ k, start ≤ k → k < text.length →
        ∃ c ∈ cs, c.start_char ≤ k ∧ k < c.end_char := by
  intro fuel
  induction fuel with
  | zero => intro start idx cs h; simp [createChunksGo] at h
  | succ fuel ih =>
    intro start idx cs h hns k hks hkl
    rw [createChunksGo] at h
    rw [noSkipGo] at hns
    by_cases hs : start < text.length
    · rw [if_pos hs] at h hns
      by_cases hw : windowText text start size = []
      · rw [if_pos hw] at hns
        simp at hns
      · rw [if_neg hw] at h hns
        cases hrec : createChunksGo text url size overlap fuel
            (nextWindowStart text start size overlap).toNat (idx + 1) with
        | none => rw [hrec] at h; exact absurd h (by simp)
        | some rest =>
          rw [hrec] at h
          injection h with h
          subst h
          by_cases hk : k < refineEnd text start size
          · exact ⟨_, List.mem_cons_self _ _, hks, hk⟩
          · push_neg at hk
            have hnge : (nextWindowStart text start size overlap).toNat ≤
                refineEnd text start size := by
              rw [nextWindowStart]
              split <;> omega
            obtain ⟨c, hc, hcs⟩ := ih _ _ _ hrec hns k (by omega) hkl
            exact ⟨c, List.mem_cons_of_mem _ hc, hcs⟩
    · omega

/-- C4: the spec demands that a configuration with size at most the overlap
be rejected before the windowing loop starts. The code has no such check;
at size 200, overlap 200 on a 300-character text without sentence
terminators the window start is recomputed as 0 on every iteration, so the
loop never terminates, for any iteration budget. -/
theorem c4_no_rejection_loops_forever :
    (∀ fuel idx, createChunksGo c4LoopText "u" 200 200 fuel 0 idx = none) ∧
    createChunks c4LoopText "u" 200 200 = none := by
  have key : ∀ fuel idx, createChunksGo c4LoopText "u" 200 200 fuel 0 idx = none := by
    intro fuel
    induction fuel with
    | zero => intro idx; rfl
    | succ fuel ih =>
      intro idx
      rw [createChunksGo, if_pos (by decide), if_neg (by decide)]
      have hn : (nextWindowStart c4LoopText 0 200 200).toNat = 0 := by decide
      rw [hn, ih (idx + 1)]
  exact ⟨key, key _ 0⟩

/-- C5: for every input text, every configuration and every returned chunk
sequence, each emitted chunk has a non-degenerate span, and consecutive
chunks are in strictly increasing start order with ends exceeding the next
start by at most the overlap. No configuration restriction is needed: the
refined window end is monotone in the window start, so a step that fails to
advance strictly stalls the loop forever and such a run never returns. -/
theorem c5_span_invariants (text : List Char) (url : String) (size overlap : Nat)
    (cs : List TextChunk)
    (h : createChunks text url size overlap = some cs) :
    (∀ c ∈ cs, c.start_char < c.end_char) ∧
    List.Chain' (fun a b => a.start_char < b.start_char ∧
      a.end_char ≤ b.start_char + overlap) cs := by
  constructor
  · intro c hc
    exact (createChunksGo_text text url size overlap _ _ _ _ h c hc).2.2.1
  · exact createChunksGo_chain text url size overlap _ _ _ _ h

/-- C5, witness. -/
theorem c5_witness :
    ∃ cs, createChunks ("Hello world. This is a test.").data "u" = some cs ∧
      (∀ c ∈ cs, c.start_char < c.end_char) ∧
      List.Chain' (fun a b => a.start_char < b.start_char ∧
        a.end_char ≤ b.start_char + 200) cs := by
  cases hsome : createChunks ("Hello world. This is a test.").data "u" with
  | none =>
    have hx : (createChunks ("Hello world. This is a test.").data "u").isSome = true := by
      decide
    rw [hsome] at hx
    simp at hx
  | some cs =>
    obtain ⟨h1, h2⟩ := c5_span_invariants _ "u" 1000 200 cs hsome
    exact ⟨cs, rfl, h1, h2⟩

/-- C6: when the run never skips a window as empty-after-trim, every
character position of a non-empty text is covered by some emitted span. -/
theorem c6_coverage (text : List Char) (url : String) (size overlap : Nat)
    (_hne : text ≠ []) (cs : List TextChunk)
    (h : createChunks text url size overlap = some cs)
    (hns : noSkipChunks text size overlap = true) :
    ∀ k, k < text.length → ∃ c ∈ cs, c.start_char ≤ k ∧ k < c.end_char := by
  intro k hk
  exact createChunksGo_cover text url size overlap _ _ _ _ h hns k (Nat.zero_le _) hk

/-- C6, witness. -/
theorem c6_witness :
    ("abcdef").data ≠ [] ∧ noSkipChunks ("abcdef").data = true ∧
    ∃ cs, createChunks ("abcdef").data "u" = some cs ∧
      ∀ k, k < ("abcdef").data.length →
        ∃ c ∈ cs, c.start_char ≤ k ∧ k < c.end_char := by
  refine ⟨by decide, by decide, ?_⟩
  cases hsome : createChunks ("abcdef").data "u" with
  | none =>
    have hx : (createChunks ("abcdef").data "u").isSome = true := by decide
    rw [hsome] at hx
    simp at hx
  | some cs =>
    exact ⟨cs, rfl, c6_coverage _ "u" 1000 200 (by decide) cs hsome (by decide)⟩

/-- C8, counterexample. At size 300, overlap 250 (so overlap strictly below
size, as the claim assumes) with the only sentence terminator at index 101,
the refined end of the first window is 102, strictly inside the text, and
the next window start computed by line 126 is negative, hence neither
non-negative nor strictly beyond the previous start. -/
theorem c8_counterexample :
    250 < 300 ∧
    refineEnd c8WindowText 0 300 = 102 ∧
    refineEnd c8WindowText 0 300 < c8WindowText.length ∧
    nextWindowStart c8WindowText 0 300 250 = -148 ∧
    nextWindowStart c8WindowText 0 300 250 < 0 := by
  refine ⟨by norm_num, by decide, by decide, by decide, by decide⟩

/-- C8, amended: in the regime where the overlap is at least 199 below the
size (the backward boundary scan is hard-coded to 200 characters, so this
is what forward progress actually requires; the default configuration
satisfies it), the loop terminates, and a window that does not reach the
text end yields a next start equal to end minus overlap, non-negative and
strictly greater than the previous start. -/
theorem c8_progress_in_regime (text : List Char) (url : String)
    (size overlap : Nat) (H : 199 + overlap ≤ size) :
    (createChunks text url size overlap).isSome = true ∧
    ∀ start, start < text.length → refineEnd text start size < text.length →
      nextWindowStart text start size overlap =
        (refineEnd text start size : Int) - (overlap : Int) ∧
      0 ≤ nextWindowStart text start size overlap ∧
      (start : Int) < nextWindowStart text start size overlap := by
  constructor
  · exact createChunksGo_isSome text url size overlap H (text.length + 1) 0 0 (by omega)
  · intro start _hs he
    obtain ⟨h1, h2⟩ := nextWindowStart_eq text start size overlap H he
    refine ⟨by rw [nextWindowStart, if_pos he], ?_, ?_⟩
    · rw [h1]
      omega
    · rw [h1]
      omega

/-- C8, witness. -/
theorem c8_witness :
    199 + 200 ≤ 1000 ∧
    ((createChunks ("abc").data "u" 1000 200).isSome = true ∧
     ∀ start, start < ("abc").data.length →
       refineEnd ("abc").data start 1000 < ("abc").data.length →
       nextWindowStart ("abc").data start 1000 200 =
         (refineEnd ("abc").data start 1000 : Int) - (200 : Int) ∧
       0 ≤ nextWindowStart ("abc").data start 1000 200 ∧
       (start : Int) < nextWindowStart ("abc").data start 1000 200) :=
  ⟨by norm_num, c8_progress_in_regime ("abc").data "u" 1000 200 (by norm_num)⟩

/-- C10: every emitted chunk's text is the whitespace-trimmed slice of the
text at its recorded span, hence a contiguous part of that slice of length
at most the span width, and never empty. -/
theorem c10_text_is_trimmed_slice (text : List Char) (url : String)
    (size overlap : Nat) (cs : List TextChunk)
    (h : createChunks text url size overlap = some cs) :
    ∀ c ∈ cs,
      c.text = pyStrip (pySlice text c.start_char c.end_char) ∧
      c.text ≠ [] ∧
      c.text <:+: pySlice text c.start_char c.end_char ∧
      c.text.length ≤ c.end_char - c.start_char := by
  intro c hc
  obtain ⟨ht, hne, hlt, hle⟩ := createChunksGo_text text url size overlap _ _ _ _ h c hc
  refine ⟨ht, hne, ?_, ?_⟩
  · rw [ht]
    exact pyStrip_part _
  · have h1 : (pyStrip (pySlice text c.start_char c.end_char)).length ≤
        (pySlice text c.start_char c.end_char).length :=
      (pyStrip_part _).length_le
    have h2 : (pySlice text c.start_char c.end_char).length ≤
        c.end_char - c.start_char := by
      rw [pySlice]
      exact List.length_take_le _ _
    rw [ht]
    omega

/-- C10, witness. -/
theorem c10_witness :
    ∃ cs, createChunks ("  Hello world.  ").data "u" = some cs ∧
      ∀ c ∈ cs,
        c.text = pyStrip (pySlice ("  Hello world.  ").data c.start_char c.end_char) ∧
        c.text ≠ [] ∧
        c.text <:+: pySlice ("  Hello world.  ").data c.start_char c.end_char ∧
        c.text.length ≤ c.end_char - c.start_char := by
  cases hsome : createChunks ("  Hello world.  ").data "u" with
  | none =>
    have hx : (createChunks ("  Hello world.  ").data "u").isSome = true := by decide
    rw [hsome] at hx
    simp at hx
  | some cs =>
    exact ⟨cs, rfl, c10_text_is_trimmed_slice _ "u" 1000 200 cs hsome⟩

/-- Fixed-width little-endian byte lists have their nominal length. -/
theorem toLEBytes_length (k : Nat) : ∀ n, (toLEBytes k n).length = k := by
  induction k with
  | zero => intro n; rfl
  | succ k ih => intro n; simp [toLEBytes, ih]

/-- Hex encoding yields two characters per byte. -/
theorem hexPairs_length : ∀ bs : List Nat, (hexPairs bs).length = 2 * bs.length := by
  intro bs
  induction bs with
  | nil => rfl
  | cons b bs ih =>
    simp [hexPairs, ih]
    omega

/-- An MD5 digest is 16 bytes. -/
theorem md5Bytes_length (msg : List Nat) : (md5Bytes msg).length = 16 := by
  rw [md5Bytes]
  simp [toLEBytes_length]

/-- An MD5 hex digest is 32 characters. -/
theorem md5hex_data_length (s : String) : (md5hex s).data.length = 32 := by
  show (hexPairs (md5Bytes (strBytes s))).length = 32
  rw [hexPairs_length, md5Bytes_length]

/-- Every chunk identifier has exactly 16 characters. -/
theorem chunkId_length (url : String) (idx : Nat) : (chunkId url idx).length = 16 := by
  show ((md5hex (url ++ ":" ++ toString idx)).data.take 16).length = 16
  rw [List.length_take, md5hex_data_length]
  decide

/-- C7: chunking the same text under the same source id twice yields the
same chunk sequence, the id of the j-th emitted chunk is the deterministic
function `chunkId` of the url and j alone, and every id is a string of the
fixed length 16. -/
theorem c7_ids_deterministic (text : List Char) (url : String)
    (cs cs2 : List TextChunk)
    (h : createChunks text url = some cs) (h2 : createChunks text url = some cs2) :
    cs2 = cs ∧
    cs.map (fun c => c.id) = (List.range cs.length).map (fun j => chunkId url j) ∧
    ∀ c ∈ cs, c.id.length = 16 := by
  refine ⟨?_, ?_, ?_⟩
  · rw [h] at h2
    exact (Option.some_inj.mp h2).symm
  · have hids := createChunksGo_ids text url 1000 200 (text.length + 1) 0 0 cs h
    rw [hids]
    apply List.map_congr_left
    intro a _
    simp
  · intro c hc
    have hids := createChunksGo_ids text url 1000 200 (text.length + 1) 0 0 cs h
    have hmem : c.id ∈ cs.map (fun c => c.id) := List.mem_map_of_mem _ hc
    rw [hids] at hmem
    obtain ⟨j, _, hj⟩ := List.mem_map.mp hmem
    rw [← hj]
    exact chunkId_length url _

/-- C7, witness. -/
theorem c7_witness :
    ∃ cs, createChunks ("Hi.").data "u" = some cs ∧
      cs.map (fun c => c.id) = (List.range cs.length).map (fun j => chunkId "u" j) ∧
      ∀ c ∈ cs, c.id.length = 16 := by
  cases hsome : createChunks ("Hi.").data "u" with
  | none =>
    have hx : (createChunks ("Hi.").data "u").isSome = true := by decide
    rw [hsome] at hx
    simp at hx
  | some cs =>
    obtain ⟨_, e2, e3⟩ := c7_ids_deterministic _ "u" cs cs hsome hsome
    exact ⟨cs, rfl, e2, e3⟩

/-- The comparison loop produces one section per chunk group. -/
theorem comparePagesGo_length (urls : List String) :
    ∀ (pcl : List (List TextChunk)) (i : Nat),
      (comparePagesGo urls i pcl).length = pcl.length := by
  intro pcl
  induction pcl with
  | nil => intro i; rfl
  | cons g rest ih => intro i; simp [comparePagesGo, ih]

/-- The j-th section built by the comparison loop started at index i is the
section of the j-th group, labelled with position i plus j. -/
theorem comparePagesGo_getD (urls : List String) :
    ∀ (pcl : List (List TextChunk)) (i j : Nat), j < pcl.length →
      (comparePagesGo urls i pcl).getD j [] =
        pageSection (i + j) (urls.getD (i + j) "") (pcl.getD j []) := by
  intro pcl
  induction pcl with
  | nil => intro i j h; simp at h
  | cons g rest ih =>
    intro i j hj
    cases j with
    | zero => simp [comparePagesGo]
    | succ j =>
      have hh := ih (i + 1) j (by simpa using hj)
      rw [show i + (j + 1) = i + 1 + j from by omega]
      simpa [comparePagesGo] using hh

/-- C9: the combined comparison context is the sections joined by the
separator, there is one section per page in request order, the i-th section
is the label carrying position i plus one and the i-th url followed by the
assembled page text capped at 2000 characters, and that per-source
contribution never exceeds 2000 characters. -/
theorem c9_multipage_sections (pcl : List (List TextChunk)) (urls : List String)
    (h : pcl.length = urls.length) :
    comparePagesContext pcl urls =
      List.intercalate ("\n\n---\n\n").data (comparePagesGo urls 0 pcl) ∧
    (comparePagesGo urls 0 pcl).length = pcl.length ∧
    ∀ i (hi : i < pcl.length),
      (comparePagesGo urls 0 pcl).getD i [] =
        pageLabel i (urls.get ⟨i, h ▸ hi⟩) ++
          (prepareContext (pcl.getD i [])).take 2000 ∧
      ((prepareContext (pcl.getD i [])).take 2000).length ≤ 2000 := by
  refine ⟨rfl, comparePagesGo_length urls pcl 0, ?_⟩
  intro i hi
  constructor
  · have hg := comparePagesGo_getD urls pcl 0 i hi
    rw [Nat.zero_add] at hg
    have hu : urls.getD i "" = urls.get ⟨i, h ▸ hi⟩ := by
      have hiu : i < urls.length := by omega
      rw [List.getD_eq_getElem _ _ hiu]
      simp [List.get_eq_getElem]
    rw [hg, pageSection, hu]
  · rw [List.length_take]
    omega

/-- C9, witness. -/
theorem c9_witness :
    (comparePagesGo ["http://a"] 0 [[⟨"i", ("hello").data, 0, 5, none⟩]]).getD 0 [] =
      pageLabel 0 "http://a" ++
        (prepareContext [⟨"i", ("hello").data, 0, 5, none⟩]).take 2000 ∧
    ((prepareContext [⟨"i", ("hello").data, 0, 5, none⟩]).take 2000).length ≤ 2000 := by
  have h := (c9_multipage_sections [[⟨"i", ("hello").data, 0, 5, none⟩]]
    ["http://a"] rfl).2.2 0 (by norm_num)
  simpa using h
